import Mathlib

/-!
Shallow embedding of `src/src/domain/mod.rs` from the
declarative-dataflow repository: the `Domain` type, which manages
attributes (entity/value relations) that share a timestamp semantics,
together with the parts of its external collaborators (input sessions
and collection indices from the dataflow runtime) that the embedded
operations interact with.

Timestamps `T: Timestamp + Lattice + TotalOrder` are modelled as `Nat`
(a totally ordered lattice whose minimum is `0`).  Hash maps are
modelled as association lists; entity ids (`u64`) as `Nat`; `isize`
multiplicities as `Int`.  Methods taking `&mut self` and returning
`Result<(), Error>` become functions `Domain → ... → Domain × Option Error`
returning the post state together with `none` on success, so that
partial mutation before a returned error stays observable.  The
`assert!` in `advance_to` is modelled by an `Option Domain` result:
`none` is the panic.
-/

namespace DD

/-- Timestamps: the code is generic over `T: Timestamp + Lattice + TotalOrder`;
we instantiate with `Nat`, whose minimum element is `0`. -/
abbrev Time := Nat

/-- Modelled from the spec: `Value` is defined outside `src/` (only used
there).  The spec says it is a tagged scalar used as entity identifiers
and attribute values, with one variant specifically denoting an entity
identifier (Eid); values compare structurally. -/
inductive Value where
  | Eid : Nat → Value
  | Str : String → Value
  | Num : Int → Value
deriving DecidableEq, Repr

/-- Attribute identifiers (`type Aid = String` in the crate root). -/
abbrev Aid := String

/-- The error struct of the crate: a category string and a message. -/
structure Error where
  category : String
  message : String
deriving DecidableEq, Repr

/-- Transaction record `TxData(op, e, a, v)`: signed multiplicity,
entity id, attribute name, value. -/
structure TxData where
  op : Int
  e : Nat
  a : Aid
  v : Value
deriving DecidableEq, Repr

/-- One timestamped weighted update of an `(e, v)` relation:
`((entity, value), time, multiplicity)`, as in
`((Value, Value), T, isize)`. -/
abbrev Update := (Value × Value) × Time × Int

/-- Transposing an update, as done by `tuples.map(|(e, v)| (v, e))`
when the reverse index is built. -/
def swapU (u : Update) : Update :=
  ((u.1.2, u.1.1), u.2.1, u.2.2)

/-- Modelled from the spec: an Attribute Input (an
`InputSession<T, (Value, Value), isize>` of the dataflow library, not
part of `src/`) is a mutable, append-only ingestion point that buffers
updates until flushed or advanced; `update` buffers one change at the
current session time, `advance_to` moves the write frontier, `flush`
forces buffered changes to be observable, `close` terminates the
input.  A fresh session starts at the minimum timestamp `0`. -/
structure InputSession where
  time : Time
  buffer : List Update
deriving DecidableEq, Repr

/-- Modelled from the spec: a `CollectionIndex` handle (declared in the
crate root, not under `src/`).  The Index Engine builds a
timestamp-versioned index over a deduplicated relation; the handle
records the raw updates that were flushed into the relation it indexes
(deduplication is applied when content is read, see
`CollectionIndex.contentAt`) and the retained-history frontier moved by
`advance_by` (`none` means full history is kept). -/
structure CollectionIndex where
  updates : List Update
  frontier : Option Time
deriving DecidableEq, Repr

/-- Accumulated weight of tuple `p` in an update list at time `t`:
the sum of the multiplicities of all updates to `p` at times `≤ t`. -/
def weightAt (l : List Update) (p : Value × Value) (t : Time) : Int :=
  match l with
  | [] => 0
  | (q, s, w) :: rest => (if q = p ∧ s ≤ t then w else 0) + weightAt rest p t

/-- Raw (pre-distinct) accumulated weight of tuple `p` at time `t` in
the relation this index was built over. -/
def CollectionIndex.countAt (ix : CollectionIndex) (p : Value × Value) (t : Time) : Int :=
  weightAt ix.updates p t

/-- Modelled from the spec: the content of the index at time `t` for
tuple `p`.  The indexed relation is `tuples.distinct()`, so a tuple is
present with weight 1 exactly when its raw accumulated weight is
positive, and absent (weight 0) otherwise. -/
def CollectionIndex.contentAt (ix : CollectionIndex) (p : Value × Value) (t : Time) : Int :=
  if 0 < ix.countAt p t then 1 else 0

/-- Advancing the retained-history frontier of an index handle
(`CollectionIndex::advance_by(&[t])`). -/
def CollectionIndex.advance_by (ix : CollectionIndex) (t : Time) : CollectionIndex :=
  { ix with frontier := some t }

/-- Association-list lookup, modelling `HashMap::get` /
`HashMap::contains_key`. -/
def alLookup (a : String) : List (String × β) → Option β
  | [] => none
  | (k, v) :: rest => if k = a then some v else alLookup a rest

/-- Association-list in-place modification of the first entry with the
given key, modelling mutation through `HashMap::get_mut`. -/
def alModify (a : String) (f : β → β) : List (String × β) → List (String × β)
  | [] => []
  | (k, v) :: rest => if k = a then (k, f v) :: rest else (k, v) :: alModify a f rest

/-- Association-list removal of the first entry with the given key,
modelling `HashMap::remove`. -/
def alErase (a : String) : List (String × β) → List (String × β)
  | [] => []
  | (k, v) :: rest => if k = a then rest else (k, v) :: alErase a rest

/-- The `Domain` struct: the current timestamp `now_at`, the input
sessions of the attributes, and the forward (eid to v) and reverse (v
to eid) attribute indices.  The probe handle of the original struct is
carried by no operation in the embedded file and is omitted. -/
structure Domain where
  now_at : Time
  input_sessions : List (String × InputSession)
  forward : List (Aid × CollectionIndex)
  reverse : List (Aid × CollectionIndex)
deriving DecidableEq, Repr

namespace Domain

/-- `Domain::new(start_at)`: empty maps, clock at `start_at`. -/
def new (start_at : Time) : Domain :=
  { now_at := start_at
    input_sessions := []
    forward := []
    reverse := [] }

/-- The conflict error produced when an attribute name already exists. -/
def conflictError (name : String) : Error :=
  { category := "df.error.category/conflict"
    message := "An attribute of name " ++ name ++ " already exists." }

/-- The error produced by `transact` for a missing attribute. -/
def attrNotFoundError (a : String) : Error :=
  { category := "df.error.category/not-found"
    message := "Attribute " ++ a ++ " does not exist." }

/-- The error produced by `close_input` for a missing input. -/
def inputNotFoundError (name : String) : Error :=
  { category := "df.error.category/not-found"
    message := "Input " ++ name ++ " does not exist." }

/-- `Domain::create_attribute(name, scope)`: if the name is already a
key of the forward index map, a conflict error and no mutation.
Otherwise a fresh empty collection with its input session
(`scope.new_collection()`, session time at the minimum timestamp), the
relation deduplicated with `distinct()`, a forward index over the
tuples and a reverse index over the transposed tuples, all three
registered under the name. -/
def create_attribute (d : Domain) (name : String) : Domain × Option Error :=
  if (alLookup name d.forward).isSome then
    (d, some (conflictError name))
  else
    ({ d with
        forward := (name, { updates := [], frontier := none }) :: d.forward
        reverse := (name, { updates := [], frontier := none }) :: d.reverse
        input_sessions := (name, { time := 0, buffer := [] }) :: d.input_sessions },
     none)

/-- `Domain::create_source(name, name_idx, datoms)`: same conflict
check; otherwise the datom stream is restricted to the records whose
discriminant equals `name_idx` (all records when `name_idx` is `None`),
the discriminant projected away, the resulting relation deduplicated
with `distinct()` and indexed forward and in reverse.  No input session
is created. -/
def create_source (d : Domain) (name : String) (name_idx : Option Nat)
    (datoms : List (Nat × Update)) : Domain × Option Error :=
  if (alLookup name d.forward).isSome then
    (d, some (conflictError name))
  else
    let tuples := match name_idx with
      | none => datoms.map (fun p => p.2)
      | some i => (datoms.filter (fun p => p.1 = i)).map (fun p => p.2)
    ({ d with
        forward := (name, { updates := tuples, frontier := none }) :: d.forward
        reverse := (name, { updates := tuples.map swapU, frontier := none }) :: d.reverse },
     none)

/-- Applying one transaction record to its (present) input session:
`handle.update((Value::Eid(e), v), op)` buffers the change at the
current session time. -/
def applyTx (d : Domain) (tx : TxData) : Domain :=
  { d with
      input_sessions :=
        alModify tx.a
          (fun s => { s with buffer := s.buffer ++ [((Value.Eid tx.e, tx.v), s.time, tx.op)] })
          d.input_sessions }

/-- `Domain::transact(tx_data)`: records are applied one at a time in
order; the first record whose attribute name has no input session stops
the loop with a not-found error, leaving the updates of the earlier
records buffered. -/
def transact (d : Domain) : List TxData → Domain × Option Error
  | [] => (d, none)
  | tx :: rest =>
    match alLookup tx.a d.input_sessions with
    | none => (d, some (attrNotFoundError tx.a))
    | some _ => transact (d.applyTx tx) rest

/-- `Domain::close_input(name)`: removes the input session for `name`
and closes it (`handle.close()` terminates the input; what the library
does with a not yet flushed buffer on close is outside `src/`, and the
spec says only that the input is terminated, so the model drops it);
not-found error (and no mutation) when no such session exists.  The
index maps are untouched. -/
def close_input (d : Domain) (name : String) : Domain × Option Error :=
  match alLookup name d.input_sessions with
  | none => (d, some (inputNotFoundError name))
  | some _ => ({ d with input_sessions := alErase name d.input_sessions }, none)

/-- The buffered updates of the session registered under `n` (empty for
names without a live session). -/
def bufOf (d : Domain) (n : String) : List Update :=
  match alLookup n d.input_sessions with
  | some s => s.buffer
  | none => []

/-- New retained-history frontier after `advance_to`: set to the trace
target when one is given, otherwise unchanged. -/
def newFrontier (trace_next : Option Time) (f : Option Time) : Option Time :=
  match trace_next with
  | none => f
  | some t => some t

/-- Session state after `handle.advance_to(next); handle.flush()`: the
write frontier moves to `next` and the buffer is drained into the
dataflow. -/
def advSession (next : Time) (p : String × InputSession) : String × InputSession :=
  (p.1, { time := next, buffer := [] })

/-- One forward index entry after a flush: the buffered updates of the
session of its attribute enter its relation, and the retained-history
frontier follows `trace_next`. -/
def advIndexF (d : Domain) (trace_next : Option Time) (p : Aid × CollectionIndex) :
    Aid × CollectionIndex :=
  (p.1, { updates := p.2.updates ++ d.bufOf p.1
          frontier := newFrontier trace_next p.2.frontier })

/-- One reverse index entry after a flush: the same buffered updates,
transposed. -/
def advIndexR (d : Domain) (trace_next : Option Time) (p : Aid × CollectionIndex) :
    Aid × CollectionIndex :=
  (p.1, { updates := p.2.updates ++ (d.bufOf p.1).map swapU
          frontier := newFrontier trace_next p.2.frontier })

/-- `Domain::advance_to(next, trace_next)`.  The `assert!(now_at ≤ next)`
is the `none` result (a panic).  Equal timestamps are a no-op.
Otherwise: the clock moves to `next`; every input session is advanced
to `next` and flushed, its buffered updates (stamped at their original
session times) entering the forward index of its attribute and, after
transposition, the reverse index; when `trace_next` is given, every
forward and reverse index advances its retained-history frontier to
it. -/
def advance_to (d : Domain) (next : Time) (trace_next : Option Time) : Option Domain :=
  if d.now_at ≤ next then
    if d.now_at = next then
      some d
    else
      some
        { now_at := next
          input_sessions := d.input_sessions.map (advSession next)
          forward := d.forward.map (d.advIndexF trace_next)
          reverse := d.reverse.map (d.advIndexR trace_next) }
  else
    none

/-- `Domain::time()`: reports the current timestamp, no side effect. -/
def time (d : Domain) : Time :=
  d.now_at

end Domain

/-- The domains reachable from `Domain::new` through the public
operations (for `advance_to`, through the non-panicking runs). -/
inductive Reachable : Domain → Prop where
  | new (start_at : Time) : Reachable (Domain.new start_at)
  | create_attribute (d : Domain) (name : String) :
      Reachable d → Reachable (d.create_attribute name).1
  | create_source (d : Domain) (name : String) (name_idx : Option Nat)
      (datoms : List (Nat × Update)) :
      Reachable d → Reachable (d.create_source name name_idx datoms).1
  | transact (d : Domain) (txs : List TxData) :
      Reachable d → Reachable (d.transact txs).1
  | close_input (d : Domain) (name : String) :
      Reachable d → Reachable (d.close_input name).1
  | advance_to (d d2 : Domain) (next : Time) (trace_next : Option Time) :
      Reachable d → d.advance_to next trace_next = some d2 → Reachable d2

/-- A small concrete domain used to instantiate the theorems: a fresh
domain at time 0 with one attribute and one buffered record. -/
def dEx : Domain :=
  ((((Domain.new 0).create_attribute "a").1).transact [⟨1, 1, "a", Value.Str "x"⟩]).1

/-- The keys of an association list. -/
def alKeys (l : List (String × β)) : List String :=
  l.map Prod.fst

/-- Transposing a whole index handle. -/
def mapSwapIx (ix : CollectionIndex) : CollectionIndex :=
  { updates := ix.updates.map swapU, frontier := ix.frontier }

/-- The reverse index map is entrywise the transpose of the forward
index map. -/
def Mirror (d : Domain) : Prop :=
  d.reverse = d.forward.map (fun p => (p.1, mapSwapIx p.2))

/-- Every name with a live input session is registered in the forward
index map. -/
def SessSub (d : Domain) : Prop :=
  ∀ n, (alLookup n d.input_sessions).isSome → (alLookup n d.forward).isSome

/-- The bookkeeping invariant of reachable domains. -/
def Inv (d : Domain) : Prop :=
  Mirror d ∧ SessSub d ∧ (alKeys d.input_sessions).Nodup

/-- Everything `advance_to(next, trace_next)` does on a strict clock
advancement: the clock reaches `next`; the set of live inputs is
unchanged and every live input is advanced to `next` with an empty
buffer; every forward index receives the buffered updates of its
attribute and every reverse index their transposition; a given
`trace_next` moves the retained-history frontier of every forward and
reverse index to it, while `trace_next = none` leaves every frontier
untouched. -/
def AdvanceSpec (d : Domain) (next : Time) (trace_next : Option Time) : Prop :=
  ∃ d2, d.advance_to next trace_next = some d2 ∧
    d2.now_at = next ∧
    (∀ n, (alLookup n d2.input_sessions).isSome = (alLookup n d.input_sessions).isSome) ∧
    (∀ n s, alLookup n d2.input_sessions = some s → s.time = next ∧ s.buffer = []) ∧
    (∀ n ix, alLookup n d.forward = some ix →
        alLookup n d2.forward =
          some { updates := ix.updates ++ d.bufOf n
                 frontier := Domain.newFrontier trace_next ix.frontier }) ∧
    (∀ n ix, alLookup n d.reverse = some ix →
        alLookup n d2.reverse =
          some { updates := ix.updates ++ (d.bufOf n).map swapU
                 frontier := Domain.newFrontier trace_next ix.frontier }) ∧
    (∀ t, trace_next = some t →
        (∀ n ix, alLookup n d2.forward = some ix → ix.frontier = some t) ∧
        (∀ n ix, alLookup n d2.reverse = some ix → ix.frontier = some t)) ∧
    (trace_next = none →
        (∀ n, (alLookup n d2.forward).map CollectionIndex.frontier =
            (alLookup n d.forward).map CollectionIndex.frontier) ∧
        (∀ n, (alLookup n d2.reverse).map CollectionIndex.frontier =
            (alLookup n d.reverse).map CollectionIndex.frontier))

/-- Everything `close_input(name)` guarantees: not-found (and no
mutation) exactly when no live input session exists for the name;
on success only that one session is removed while both index maps stay
exactly as they were; and `create_source` never creates an input
session at all. -/
def CloseSpec (d : Domain) (name : String) : Prop :=
  (alLookup name d.input_sessions = none →
      d.close_input name = (d, some (Domain.inputNotFoundError name))) ∧
  (∀ s, alLookup name d.input_sessions = some s →
      (d.close_input name).2 = none ∧
      alLookup name (d.close_input name).1.input_sessions = none ∧
      (∀ m, m ≠ name →
          alLookup m (d.close_input name).1.input_sessions =
            alLookup m d.input_sessions) ∧
      (d.close_input name).1.forward = d.forward ∧
      (d.close_input name).1.reverse = d.reverse) ∧
  (∀ (m : String) (name_idx : Option Nat) (datoms : List (Nat × Update)),
      ((d.create_source m name_idx datoms).1).input_sessions = d.input_sessions)

/-- After a successful `close_input(n)`, the name `n` is still a key of
the forward index map, so both creators still report a conflict for it
and mutate nothing. -/
def NeverFreedSpec (d : Domain) (n : String) (name_idx : Option Nat)
    (datoms : List (Nat × Update)) : Prop :=
  (alLookup n (d.close_input n).1.forward).isSome ∧
  (d.close_input n).1.create_attribute n =
    ((d.close_input n).1, some (Domain.conflictError n)) ∧
  (d.close_input n).1.create_source n name_idx datoms =
    ((d.close_input n).1, some (Domain.conflictError n))

/-- The deduplication guarantee: every index content weight is 0 or 1,
and the concrete scenario of two inserts of `(e, v)` followed by one
retract at the same timestamp nets, after the next clock advancement,
to exactly one `(e, v)` in the indexed relation. -/
def DistinctSpec (e : Nat) (v : Value) (a : String) (next t : Time) : Prop :=
  (∀ (ix : CollectionIndex) (p : Value × Value) (t2 : Time),
      ix.contentAt p t2 = 0 ∨ ix.contentAt p t2 = 1) ∧
  (∃ d2 ix,
    ((((Domain.new 0).create_attribute a).1.transact
        [⟨1, e, a, v⟩, ⟨1, e, a, v⟩, ⟨-1, e, a, v⟩]).1).advance_to next none = some d2 ∧
    alLookup a d2.forward = some ix ∧
    ix.contentAt (Value.Eid e, v) t = 1)

theorem optIsSome_map (f : β → γ) (x : Option β) :
    (x.map f).isSome = x.isSome := by
  cases x <;> rfl

theorem alLookup_eq_none_iff (a : String) (l : List (String × β)) :
    alLookup a l = none ↔ a ∉ alKeys l := by
  induction l with
  | nil => simp [alLookup, alKeys]
  | cons p rest ih =>
    obtain ⟨k, v⟩ := p
    by_cases hk : k = a
    · subst hk
      simp [alLookup, alKeys]
    · simp [alLookup, alKeys, hk, ih, Ne.symm hk]

theorem alLookup_map (g : β → γ) (l : List (String × β)) (a : String) :
    alLookup a (l.map (fun p => (p.1, g p.2))) = (alLookup a l).map g := by
  induction l with
  | nil => rfl
  | cons p rest ih =>
    obtain ⟨k, v⟩ := p
    by_cases hk : k = a
    · subst hk; simp [alLookup]
    · simp [alLookup, hk, ih]

theorem alLookup_mapKey (f : String → β → γ) (l : List (String × β)) (a : String) :
    alLookup a (l.map (fun p => (p.1, f p.1 p.2))) = (alLookup a l).map (f a) := by
  induction l with
  | nil => rfl
  | cons p rest ih =>
    obtain ⟨k, v⟩ := p
    by_cases hk : k = a
    · subst hk; simp [alLookup]
    · simp [alLookup, hk, ih]

theorem alLookup_alModify (a b : String) (f : β → β) (l : List (String × β)) :
    alLookup b (alModify a f l) =
      if a = b then (alLookup b l).map f else alLookup b l := by
  induction l with
  | nil => simp [alLookup, alModify]
  | cons p rest ih =>
    obtain ⟨k, v⟩ := p
    by_cases hk : k = a
    · subst hk
      by_cases hb : k = b
      · subst hb; simp [alLookup, alModify]
      · simp [alLookup, alModify, hb, Ne.symm hb]
    · by_cases hb : k = b
      · subst hb
        have : a ≠ k := fun h => hk h.symm
        simp [alLookup, alModify, hk, this]
      · simp [alLookup, alModify, hk, hb, ih]

theorem alKeys_alModify (a : String) (f : β → β) (l : List (String × β)) :
    alKeys (alModify a f l) = alKeys l := by
  induction l with
  | nil => rfl
  | cons p rest ih =>
    obtain ⟨k, v⟩ := p
    by_cases hk : k = a
    · subst hk; simp [alModify, alKeys]
    · simp [alModify, alKeys, hk] at ih ⊢
      exact ih

theorem alLookup_alErase_ne (a b : String) (hab : a ≠ b) (l : List (String × β)) :
    alLookup b (alErase a l) = alLookup b l := by
  induction l with
  | nil => rfl
  | cons p rest ih =>
    obtain ⟨k, v⟩ := p
    by_cases hk : k = a
    · subst hk
      simp [alErase, alLookup, hab]
    · by_cases hb : k = b
      · subst hb; simp [alErase, alLookup, hk]
      · simp [alErase, alLookup, hk, hb, ih]

theorem alLookup_alErase_self (a : String) (l : List (String × β))
    (h : (alKeys l).Nodup) : alLookup a (alErase a l) = none := by
  induction l with
  | nil => rfl
  | cons p rest ih =>
    obtain ⟨k, v⟩ := p
    simp only [alKeys, List.map_cons, List.nodup_cons] at h
    by_cases hk : k = a
    · subst hk
      simp only [alErase, if_pos rfl]
      exact (alLookup_eq_none_iff k rest).2 h.1
    · simp only [alErase, if_neg hk, alLookup, if_neg hk]
      exact ih h.2

theorem alKeys_alErase_sublist (a : String) (l : List (String × β)) :
    (alKeys (alErase a l)).Sublist (alKeys l) := by
  induction l with
  | nil => simp [alErase, alKeys]
  | cons p rest ih =>
    obtain ⟨k, v⟩ := p
    by_cases hk : k = a
    · subst hk
      simp only [alErase, if_pos rfl]
      exact (List.sublist_cons_self _ _)
    · simp only [alErase, if_neg hk, alKeys, List.map_cons]
      exact ih.cons₂ _

theorem alLookup_isSome_of_alErase (a b : String) (l : List (String × β))
    (h : (alLookup b (alErase a l)).isSome) : (alLookup b l).isSome := by
  induction l with
  | nil => simp [alErase, alLookup] at h
  | cons p rest ih =>
    obtain ⟨k, v⟩ := p
    by_cases hk : k = a
    · subst hk
      simp only [alErase, if_pos rfl] at h
      by_cases hb : k = b
      · subst hb; simp [alLookup]
      · simpa [alLookup, hb] using h
    · by_cases hb : k = b
      · subst hb; simp [alLookup]
      · simp only [alErase, if_neg hk, alLookup, if_neg hb] at h ⊢
        exact ih h

theorem applyTx_now_at (d : Domain) (tx : TxData) :
    (d.applyTx tx).now_at = d.now_at := rfl

theorem applyTx_forward (d : Domain) (tx : TxData) :
    (d.applyTx tx).forward = d.forward := rfl

theorem applyTx_reverse (d : Domain) (tx : TxData) :
    (d.applyTx tx).reverse = d.reverse := rfl

theorem applyTx_keys (d : Domain) (tx : TxData) :
    alKeys (d.applyTx tx).input_sessions = alKeys d.input_sessions :=
  alKeys_alModify _ _ _

theorem transact_now_at (d : Domain) (txs : List TxData) :
    (d.transact txs).1.now_at = d.now_at := by
  induction txs generalizing d with
  | nil => rfl
  | cons tx rest ih =>
    simp only [Domain.transact]
    cases alLookup tx.a d.input_sessions with
    | none => rfl
    | some s => exact ih (d.applyTx tx)

theorem transact_forward (d : Domain) (txs : List TxData) :
    (d.transact txs).1.forward = d.forward := by
  induction txs generalizing d with
  | nil => rfl
  | cons tx rest ih =>
    simp only [Domain.transact]
    cases alLookup tx.a d.input_sessions with
    | none => rfl
    | some s => exact ih (d.applyTx tx)

theorem transact_reverse (d : Domain) (txs : List TxData) :
    (d.transact txs).1.reverse = d.reverse := by
  induction txs generalizing d with
  | nil => rfl
  | cons tx rest ih =>
    simp only [Domain.transact]
    cases alLookup tx.a d.input_sessions with
    | none => rfl
    | some s => exact ih (d.applyTx tx)

theorem transact_keys (d : Domain) (txs : List TxData) :
    alKeys (d.transact txs).1.input_sessions = alKeys d.input_sessions := by
  induction txs generalizing d with
  | nil => rfl
  | cons tx rest ih =>
    simp only [Domain.transact]
    cases alLookup tx.a d.input_sessions with
    | none => rfl
    | some s => exact (ih (d.applyTx tx)).trans (applyTx_keys d tx)

theorem alLookup_isSome_iff_keys (a : String) (l : List (String × β)) :
    (alLookup a l).isSome ↔ a ∈ alKeys l := by
  rcases h : alLookup a l with _ | v
  · simp [(alLookup_eq_none_iff a l).1 h]
  · have : alLookup a l ≠ none := by simp [h]
    simp only [Option.isSome_some, true_iff]
    by_contra hm
    exact this ((alLookup_eq_none_iff a l).2 hm)

theorem alLookup_map_advSession (next : Time) (l : List (String × InputSession))
    (a : String) :
    alLookup a (l.map (Domain.advSession next)) =
      (alLookup a l).map (fun _ => { time := next, buffer := [] }) := by
  induction l with
  | nil => rfl
  | cons p rest ih =>
    obtain ⟨k, v⟩ := p
    by_cases hk : k = a
    · subst hk; simp [alLookup, Domain.advSession]
    · simp [alLookup, Domain.advSession, hk, ih]

theorem alLookup_map_advIndexF (d : Domain) (trace_next : Option Time)
    (l : List (Aid × CollectionIndex)) (a : Aid) :
    alLookup a (l.map (d.advIndexF trace_next)) =
      (alLookup a l).map (fun ix =>
        { updates := ix.updates ++ d.bufOf a
          frontier := Domain.newFrontier trace_next ix.frontier }) := by
  induction l with
  | nil => rfl
  | cons p rest ih =>
    obtain ⟨k, v⟩ := p
    by_cases hk : k = a
    · subst hk; simp [alLookup, Domain.advIndexF]
    · simp [alLookup, Domain.advIndexF, hk, ih]

theorem alLookup_map_advIndexR (d : Domain) (trace_next : Option Time)
    (l : List (Aid × CollectionIndex)) (a : Aid) :
    alLookup a (l.map (d.advIndexR trace_next)) =
      (alLookup a l).map (fun ix =>
        { updates := ix.updates ++ (d.bufOf a).map swapU
          frontier := Domain.newFrontier trace_next ix.frontier }) := by
  induction l with
  | nil => rfl
  | cons p rest ih =>
    obtain ⟨k, v⟩ := p
    by_cases hk : k = a
    · subst hk; simp [alLookup, Domain.advIndexR]
    · simp [alLookup, Domain.advIndexR, hk, ih]

theorem alKeys_map_advSession (next : Time) (l : List (String × InputSession)) :
    alKeys (l.map (Domain.advSession next)) = alKeys l := by
  induction l with
  | nil => rfl
  | cons p rest ih => simp [alKeys, Domain.advSession]

theorem inv_preserved_create_attribute (d : Domain) (name : String)
    (h : Inv d) : Inv (d.create_attribute name).1 := by
  obtain ⟨hm, hs, hn⟩ := h
  have hme : d.reverse = d.forward.map (fun p => (p.1, mapSwapIx p.2)) := hm
  by_cases hc : (alLookup name d.forward).isSome
  · simpa [Domain.create_attribute, hc] using ⟨hm, hs, hn⟩
  · simp only [Domain.create_attribute, if_neg hc]
    refine ⟨?_, ?_, ?_⟩
    · show (name, ({ updates := [], frontier := none } : CollectionIndex)) :: d.reverse = _
      simp only [List.map_cons, hme]
      rfl
    · intro n hsome
      by_cases hb : name = n
      · subst hb; simp [alLookup]
      · simp only [alLookup, if_neg hb] at hsome ⊢
        exact hs n hsome
    · simp only [alKeys, List.map_cons, List.nodup_cons]
      refine ⟨?_, hn⟩
      intro hmem
      have : (alLookup name d.input_sessions).isSome :=
        (alLookup_isSome_iff_keys name d.input_sessions).2 hmem
      exact hc (hs name this)

theorem inv_preserved_create_source (d : Domain) (name : String)
    (name_idx : Option Nat) (datoms : List (Nat × Update))
    (h : Inv d) : Inv (d.create_source name name_idx datoms).1 := by
  obtain ⟨hm, hs, hn⟩ := h
  have hme : d.reverse = d.forward.map (fun p => (p.1, mapSwapIx p.2)) := hm
  by_cases hc : (alLookup name d.forward).isSome
  · simpa [Domain.create_source, hc] using ⟨hm, hs, hn⟩
  · simp only [Domain.create_source, if_neg hc]
    refine ⟨?_, ?_, ?_⟩
    · show (name, _) :: d.reverse = _
      simp only [List.map_cons, hme]
      rfl
    · intro n hsome
      by_cases hb : name = n
      · subst hb; simp [alLookup]
      · simp only [alLookup, if_neg hb] at hsome ⊢
        exact hs n hsome
    · exact hn

theorem inv_preserved_applyTx (d : Domain) (tx : TxData)
    (h : Inv d) : Inv (d.applyTx tx) := by
  obtain ⟨hm, hs, hn⟩ := h
  refine ⟨hm, ?_, ?_⟩
  · intro n hsome
    apply hs n
    simp only [Domain.applyTx] at hsome
    rw [alLookup_alModify] at hsome
    by_cases hab : tx.a = n
    · simpa [hab, optIsSome_map] using hsome
    · simpa [hab] using hsome
  · simpa [applyTx_keys] using hn

theorem inv_preserved_transact (d : Domain) (txs : List TxData)
    (h : Inv d) : Inv (d.transact txs).1 := by
  induction txs generalizing d with
  | nil => exact h
  | cons tx rest ih =>
    simp only [Domain.transact]
    cases alLookup tx.a d.input_sessions with
    | none => exact h
    | some s => exact ih (d.applyTx tx) (inv_preserved_applyTx d tx h)

theorem inv_preserved_close_input (d : Domain) (name : String)
    (h : Inv d) : Inv (d.close_input name).1 := by
  obtain ⟨hm, hs, hn⟩ := h
  cases hc : alLookup name d.input_sessions with
  | none => simpa [Domain.close_input, hc] using ⟨hm, hs, hn⟩
  | some s =>
    refine ⟨by simpa [Domain.close_input, hc] using hm, ?_, ?_⟩
    · intro n hsome
      simp only [Domain.close_input, hc] at hsome ⊢
      exact hs n (alLookup_isSome_of_alErase name n _ hsome)
    · simp only [Domain.close_input, hc]
      exact hn.sublist (alKeys_alErase_sublist name d.input_sessions)

theorem inv_preserved_advance_to (d d2 : Domain) (next : Time)
    (trace_next : Option Time) (h : Inv d)
    (hadv : d.advance_to next trace_next = some d2) : Inv d2 := by
  obtain ⟨hm, hs, hn⟩ := h
  have hme : d.reverse = d.forward.map (fun p => (p.1, mapSwapIx p.2)) := hm
  simp only [Domain.advance_to] at hadv
  by_cases hle : d.now_at ≤ next
  · rw [if_pos hle] at hadv
    by_cases heq : d.now_at = next
    · rw [if_pos heq, Option.some_inj] at hadv
      subst hadv
      exact ⟨hm, hs, hn⟩
    · rw [if_neg heq, Option.some_inj] at hadv
      subst hadv
      refine ⟨?_, ?_, ?_⟩
      · show List.map (d.advIndexR trace_next) d.reverse = _
        rw [hme, List.map_map, List.map_map]
        apply List.map_congr_left
        intro p _
        obtain ⟨n, ix⟩ := p
        simp [Domain.advIndexR, Domain.advIndexF, mapSwapIx, Function.comp]
      · intro n hsome
        show (alLookup n (d.forward.map (d.advIndexF trace_next))).isSome
        rw [alLookup_map_advIndexF]
        rw [show List.map (Domain.advSession next) d.input_sessions =
            d.input_sessions.map (Domain.advSession next) from rfl,
          alLookup_map_advSession] at hsome
        rw [optIsSome_map] at hsome
        rw [optIsSome_map]
        exact hs n hsome
      · show (alKeys (d.input_sessions.map (Domain.advSession next))).Nodup
        rw [alKeys_map_advSession]
        exact hn
  · rw [if_neg hle] at hadv
    cases hadv

theorem reachable_inv (d : Domain) (h : Reachable d) : Inv d := by
  induction h with
  | new start_at =>
    refine ⟨rfl, ?_, by simp [Domain.new, alKeys]⟩
    intro n hsome
    simp [Domain.new, alLookup] at hsome
  | create_attribute d name _ ih => exact inv_preserved_create_attribute d name ih
  | create_source d name name_idx datoms _ ih =>
    exact inv_preserved_create_source d name name_idx datoms ih
  | transact d txs _ ih => exact inv_preserved_transact d txs ih
  | close_input d name _ ih => exact inv_preserved_close_input d name ih
  | advance_to d d2 next trace_next _ hadv ih =>
    exact inv_preserved_advance_to d d2 next trace_next ih hadv

theorem weightAt_map_swapU (l : List Update) (a b : Value) (t : Time) :
    weightAt (l.map swapU) (b, a) t = weightAt l (a, b) t := by
  induction l with
  | nil => rfl
  | cons u rest ih =>
    obtain ⟨⟨q1, q2⟩, s, w⟩ := u
    simp only [List.map_cons, weightAt, swapU, ih]
    congr 1
    have hc : ((q2, q1) = (b, a) ∧ s ≤ t) ↔ ((q1, q2) = (a, b) ∧ s ≤ t) := by
      simp only [Prod.mk.injEq]
      tauto
    exact if_congr hc rfl rfl

theorem mapSwapIx_contentAt (ix : CollectionIndex) (a b : Value) (t : Time) :
    (mapSwapIx ix).contentAt (b, a) t = ix.contentAt (a, b) t := by
  simp only [CollectionIndex.contentAt, CollectionIndex.countAt, mapSwapIx,
    weightAt_map_swapU]

theorem mirror_lookup (d : Domain) (h : Mirror d) (a : Aid) :
    alLookup a d.reverse = (alLookup a d.forward).map mapSwapIx := by
  have hme : d.reverse = d.forward.map (fun p => (p.1, mapSwapIx p.2)) := h
  rw [hme]
  exact alLookup_map mapSwapIx d.forward a

theorem create_attribute_conflict (d : Domain) (n : String)
    (h : (alLookup n d.forward).isSome) :
    d.create_attribute n = (d, some (Domain.conflictError n)) := by
  simp [Domain.create_attribute, h]

theorem create_source_conflict (d : Domain) (n : String) (name_idx : Option Nat)
    (datoms : List (Nat × Update)) (h : (alLookup n d.forward).isSome) :
    d.create_source n name_idx datoms = (d, some (Domain.conflictError n)) := by
  simp [Domain.create_source, h]

theorem applyTx_lookup_isSome (d : Domain) (tx : TxData) (b : String) :
    (alLookup b (d.applyTx tx).input_sessions).isSome =
      (alLookup b d.input_sessions).isSome := by
  simp only [Domain.applyTx, alLookup_alModify]
  by_cases hab : tx.a = b
  · simp [hab, optIsSome_map]
  · simp [hab]

theorem applyTx_lookup_none (d : Domain) (tx : TxData) (b : String) :
    alLookup b (d.applyTx tx).input_sessions = none ↔
      alLookup b d.input_sessions = none := by
  rw [← Option.not_isSome_iff_eq_none, ← Option.not_isSome_iff_eq_none,
    applyTx_lookup_isSome]

theorem foldl_applyTx_lookup_none (pre : List TxData) (d : Domain) (b : String)
    (h : alLookup b d.input_sessions = none) :
    alLookup b (pre.foldl Domain.applyTx d).input_sessions = none := by
  induction pre generalizing d with
  | nil => exact h
  | cons tx pre ih =>
    exact ih (d.applyTx tx) ((applyTx_lookup_none d tx b).mpr h)

theorem transact_append_applied (d : Domain) (pre rest : List TxData)
    (h : ∀ r ∈ pre, (alLookup r.a d.input_sessions).isSome) :
    d.transact (pre ++ rest) = (pre.foldl Domain.applyTx d).transact rest := by
  induction pre generalizing d with
  | nil => rfl
  | cons tx pre ih =>
    have htx : (alLookup tx.a d.input_sessions).isSome := h tx (by simp)
    obtain ⟨s, hsx⟩ := Option.isSome_iff_exists.mp htx
    simp only [List.cons_append, Domain.transact, hsx, List.foldl_cons]
    apply ih
    intro r hr
    rw [applyTx_lookup_isSome]
    exact h r (List.mem_cons_of_mem tx hr)

theorem reachable_dEx : Reachable dEx :=
  Reachable.transact _ _ (Reachable.create_attribute _ _ (Reachable.new 0))

/-- C1: for every attribute of a reachable domain (whether created via
`create_attribute` or `create_source`), the reverse index is registered
exactly when the forward index is, and at every timestamp its content
at `(v, e)` equals the forward content at `(e, v)` with equal weight:
the reverse index is the exact transpose of the same
distinct-deduplicated relation. -/
theorem c1_reverse_is_transpose (d : Domain) (a : Aid) (hr : Reachable d) :
    ((alLookup a d.reverse).isSome = (alLookup a d.forward).isSome) ∧
    (∀ fi ri, alLookup a d.forward = some fi → alLookup a d.reverse = some ri →
      ∀ e v t, ri.contentAt (v, e) t = fi.contentAt (e, v) t) := by
  obtain ⟨hm, -, -⟩ := reachable_inv d hr
  have hml := mirror_lookup d hm a
  constructor
  · rw [hml, optIsSome_map]
  · intro fi ri hf hb
    rw [hml, hf] at hb
    have hb2 : some (mapSwapIx fi) = some ri := hb
    have : ri = mapSwapIx fi := (Option.some_inj.mp hb2).symm
    subst this
    intro e v t
    exact mapSwapIx_contentAt fi e v t

theorem c1_witness :
    Reachable dEx ∧
    (((alLookup "a" dEx.reverse).isSome = (alLookup "a" dEx.forward).isSome) ∧
      (∀ fi ri, alLookup "a" dEx.forward = some fi → alLookup "a" dEx.reverse = some ri →
        ∀ e v t, ri.contentAt (v, e) t = fi.contentAt (e, v) t)) :=
  ⟨reachable_dEx, c1_reverse_is_transpose dEx "a" reachable_dEx⟩

/-- C2: for every run of `advance_to` that returns, the clock reported
by `time()` is non-decreasing; a target strictly below the current
`now_at` fails the assertion (the panic, modelled as `none`), never
being silently accepted; and none of the four other operations ever
changes `now_at`. -/
theorem c2_clock_monotone (d : Domain) (next : Time) (trace_next : Option Time)
    (name : String) (name_idx : Option Nat) (datoms : List (Nat × Update))
    (txs : List TxData) :
    (∀ d2, d.advance_to next trace_next = some d2 → d.time ≤ d2.time) ∧
    (next < d.now_at → d.advance_to next trace_next = none) ∧
    (d.create_attribute name).1.now_at = d.now_at ∧
    (d.create_source name name_idx datoms).1.now_at = d.now_at ∧
    (d.transact txs).1.now_at = d.now_at ∧
    (d.close_input name).1.now_at = d.now_at := by
  refine ⟨?_, ?_, ?_, ?_, transact_now_at d txs, ?_⟩
  · intro d2 h
    simp only [Domain.advance_to] at h
    by_cases hle : d.now_at ≤ next
    · rw [if_pos hle] at h
      by_cases heq : d.now_at = next
      · rw [if_pos heq, Option.some_inj] at h
        subst h
        exact le_refl _
      · rw [if_neg heq, Option.some_inj] at h
        subst h
        exact hle
    · rw [if_neg hle] at h
      cases h
  · intro hlt
    simp [Domain.advance_to, not_le.mpr hlt]
  · by_cases hc : (alLookup name d.forward).isSome <;>
      simp [Domain.create_attribute, hc]
  · by_cases hc : (alLookup name d.forward).isSome <;>
      simp [Domain.create_source, hc]
  · cases hc : alLookup name d.input_sessions <;> simp [Domain.close_input, hc]

theorem c2_witness :
    3 < (Domain.new 5).now_at ∧ (Domain.new 5).advance_to 3 none = none :=
  ⟨by decide, (c2_clock_monotone (Domain.new 5) 3 none "a" none [] []).2.1 (by decide)⟩

/-- C4: creating an attribute name that is already registered, through
either `create_attribute` or `create_source`, returns the conflict
error and performs no mutation: the returned domain is exactly the old
one (clock, input handles, and both index registrations included). -/
theorem c4_create_conflict_no_mutation (d : Domain) (n : String)
    (name_idx : Option Nat) (datoms : List (Nat × Update))
    (h : (alLookup n d.forward).isSome) :
    d.create_attribute n = (d, some (Domain.conflictError n)) ∧
    d.create_source n name_idx datoms = (d, some (Domain.conflictError n)) :=
  ⟨create_attribute_conflict d n h, create_source_conflict d n name_idx datoms h⟩

theorem c4_witness :
    (alLookup "a" dEx.forward).isSome ∧
    (dEx.create_attribute "a" = (dEx, some (Domain.conflictError "a")) ∧
      dEx.create_source "a" none [] = (dEx, some (Domain.conflictError "a"))) :=
  ⟨by decide, c4_create_conflict_no_mutation dEx "a" none [] (by decide)⟩

/-- C8: calling `advance_to` with `next` equal to the current `now_at`
is a complete no-op for every `trace_next` argument: the returned
domain is exactly the old one, so no input is advanced or flushed and
no index frontier moves. -/
theorem c8_advance_to_now_noop (d : Domain) (trace_next : Option Time) :
    d.advance_to d.now_at trace_next = some d := by
  simp [Domain.advance_to]

/-- C5: when every record of `pre` names an attribute with a live input
and `bad` does not, `transact (pre ++ bad :: rest)` fails with the
not-found error naming the attribute of `bad`, while the resulting
state is exactly the fold of the per-record updates over `pre`: the
earlier records stay buffered, nothing is rolled back. -/
theorem c5_transact_partial_failure (d : Domain) (pre : List TxData) (bad : TxData)
    (rest : List TxData)
    (h1 : ∀ r ∈ pre, (alLookup r.a d.input_sessions).isSome)
    (h2 : alLookup bad.a d.input_sessions = none) :
    d.transact (pre ++ bad :: rest) =
      (pre.foldl Domain.applyTx d, some (Domain.attrNotFoundError bad.a)) := by
  rw [transact_append_applied d pre _ h1]
  have hnone : alLookup bad.a (pre.foldl Domain.applyTx d).input_sessions = none :=
    foldl_applyTx_lookup_none pre d bad.a h2
  simp [Domain.transact, hnone]

theorem c5_witness :
    (∀ r ∈ [(⟨1, 2, "a", Value.Str "y"⟩ : TxData)],
        (alLookup r.a dEx.input_sessions).isSome) ∧
    alLookup "b" dEx.input_sessions = none ∧
    dEx.transact
        ([⟨1, 2, "a", Value.Str "y"⟩] ++ (⟨1, 3, "b", Value.Str "z"⟩ : TxData) :: []) =
      ([(⟨1, 2, "a", Value.Str "y"⟩ : TxData)].foldl Domain.applyTx dEx,
        some (Domain.attrNotFoundError "b")) :=
  ⟨by decide, by decide,
    c5_transact_partial_failure dEx [⟨1, 2, "a", Value.Str "y"⟩]
      ⟨1, 3, "b", Value.Str "z"⟩ [] (by decide) (by decide)⟩

/-- C10: `transact` processes the batch in order and short-circuits at
the first failing record: a batch whose records all have live inputs
succeeds with every record applied in order, and when `bad` is the
first failing record, the records after it are irrelevant — the result
equals the run of the batch truncated right after `bad`. -/
theorem c10_transact_order_shortcircuit (d : Domain) (txs pre rest : List TxData)
    (bad : TxData)
    (h1 : ∀ r ∈ txs, (alLookup r.a d.input_sessions).isSome)
    (h2 : ∀ r ∈ pre, (alLookup r.a d.input_sessions).isSome)
    (h3 : alLookup bad.a d.input_sessions = none) :
    d.transact txs = (txs.foldl Domain.applyTx d, none) ∧
    d.transact (pre ++ bad :: rest) = d.transact (pre ++ [bad]) := by
  constructor
  · have happ := transact_append_applied d txs [] h1
    rw [List.append_nil] at happ
    rw [happ]
    rfl
  · rw [transact_append_applied d pre _ h2, transact_append_applied d pre _ h2]
    have hnone : alLookup bad.a (pre.foldl Domain.applyTx d).input_sessions = none :=
      foldl_applyTx_lookup_none pre d bad.a h3
    simp [Domain.transact, hnone]

theorem c10_witness :
    (∀ r ∈ [(⟨1, 2, "a", Value.Str "y"⟩ : TxData)],
        (alLookup r.a dEx.input_sessions).isSome) ∧
    alLookup "b" dEx.input_sessions = none ∧
    (dEx.transact [(⟨1, 2, "a", Value.Str "y"⟩ : TxData)] =
        ([(⟨1, 2, "a", Value.Str "y"⟩ : TxData)].foldl Domain.applyTx dEx, none) ∧
      dEx.transact
          ([⟨1, 2, "a", Value.Str "y"⟩] ++
            (⟨1, 3, "b", Value.Str "z"⟩ : TxData) :: [⟨1, 4, "a", Value.Str "w"⟩]) =
        dEx.transact ([⟨1, 2, "a", Value.Str "y"⟩] ++ [⟨1, 3, "b", Value.Str "z"⟩])) :=
  ⟨by decide, by decide,
    c10_transact_order_shortcircuit dEx [⟨1, 2, "a", Value.Str "y"⟩]
      [⟨1, 2, "a", Value.Str "y"⟩] [⟨1, 4, "a", Value.Str "w"⟩]
      ⟨1, 3, "b", Value.Str "z"⟩ (by decide) (by decide) (by decide)⟩

/-- C6: a strict clock advancement does everything at once: `now_at`
becomes `next`; every still-open input keeps existing, is advanced to
`next` and has its buffer flushed into the forward index of its
attribute (transposed into the reverse one); a given `trace_next`
moves the retained-history frontier of every forward and reverse
index, while `trace_next = none` touches no frontier. -/
theorem c6_advance_to_strict (d : Domain) (next : Time) (trace_next : Option Time)
    (h : d.now_at < next) : AdvanceSpec d next trace_next := by
  have hle : d.now_at ≤ next := le_of_lt h
  have hne : d.now_at ≠ next := ne_of_lt h
  refine ⟨{ now_at := next
            input_sessions := d.input_sessions.map (Domain.advSession next)
            forward := d.forward.map (d.advIndexF trace_next)
            reverse := d.reverse.map (d.advIndexR trace_next) },
    ?_, rfl, ?_, ?_, ?_, ?_, ?_, ?_⟩
  · simp [Domain.advance_to, hle, hne]
  · intro n
    show (alLookup n (d.input_sessions.map (Domain.advSession next))).isSome = _
    rw [alLookup_map_advSession, optIsSome_map]
  · intro n s hs
    rw [show (({ now_at := next
                 input_sessions := d.input_sessions.map (Domain.advSession next)
                 forward := d.forward.map (d.advIndexF trace_next)
                 reverse := d.reverse.map (d.advIndexR trace_next) } : Domain)).input_sessions =
        d.input_sessions.map (Domain.advSession next) from rfl,
      alLookup_map_advSession] at hs
    cases hx : alLookup n d.input_sessions with
    | none => rw [hx] at hs; cases hs
    | some s0 =>
      rw [hx] at hs
      have : ({ time := next, buffer := [] } : InputSession) = s := Option.some_inj.mp hs
      subst this
      exact ⟨rfl, rfl⟩
  · intro n ix hix
    show alLookup n (d.forward.map (d.advIndexF trace_next)) = _
    rw [alLookup_map_advIndexF, hix]
    rfl
  · intro n ix hix
    show alLookup n (d.reverse.map (d.advIndexR trace_next)) = _
    rw [alLookup_map_advIndexR, hix]
    rfl
  · intro t ht
    subst ht
    constructor
    · intro n ix hix
      rw [show (({ now_at := next
                   input_sessions := d.input_sessions.map (Domain.advSession next)
                   forward := d.forward.map (d.advIndexF (some t))
                   reverse := d.reverse.map (d.advIndexR (some t)) } : Domain)).forward =
          d.forward.map (d.advIndexF (some t)) from rfl,
        alLookup_map_advIndexF] at hix
      cases hx : alLookup n d.forward with
      | none => rw [hx] at hix; cases hix
      | some ix0 =>
        rw [hx] at hix
        have := Option.some_inj.mp hix
        rw [← this]
        rfl
    · intro n ix hix
      rw [show (({ now_at := next
                   input_sessions := d.input_sessions.map (Domain.advSession next)
                   forward := d.forward.map (d.advIndexF (some t))
                   reverse := d.reverse.map (d.advIndexR (some t)) } : Domain)).reverse =
          d.reverse.map (d.advIndexR (some t)) from rfl,
        alLookup_map_advIndexR] at hix
      cases hx : alLookup n d.reverse with
      | none => rw [hx] at hix; cases hix
      | some ix0 =>
        rw [hx] at hix
        have := Option.some_inj.mp hix
        rw [← this]
        rfl
  · intro ht
    subst ht
    constructor
    · intro n
      show ((alLookup n (d.forward.map (d.advIndexF none))).map CollectionIndex.frontier) = _
      rw [alLookup_map_advIndexF]
      cases alLookup n d.forward <;> rfl
    · intro n
      show ((alLookup n (d.reverse.map (d.advIndexR none))).map CollectionIndex.frontier) = _
      rw [alLookup_map_advIndexR]
      cases alLookup n d.reverse <;> rfl

theorem c6_witness : dEx.now_at < 1 ∧ AdvanceSpec dEx 1 (some 1) :=
  ⟨by decide, c6_advance_to_strict dEx 1 (some 1) (by decide)⟩

/-- C7: `close_input(name)` returns the not-found error exactly when no
live input session exists under `name` (never created, created through
`create_source` which makes none, or already closed); on success it
removes only that one input while both index maps stay registered
unchanged. -/
theorem c7_close_input_spec (d : Domain) (name : String) (hr : Reachable d) :
    CloseSpec d name := by
  obtain ⟨-, -, hn⟩ := reachable_inv d hr
  refine ⟨?_, ?_, ?_⟩
  · intro h
    simp [Domain.close_input, h]
  · intro s hs
    simp only [Domain.close_input, hs]
    refine ⟨trivial, ?_, ?_, trivial, trivial⟩
    · exact alLookup_alErase_self name d.input_sessions hn
    · intro m hm
      exact alLookup_alErase_ne name m (fun h => hm h.symm) d.input_sessions
  · intro m name_idx datoms
    by_cases hc : (alLookup m d.forward).isSome <;> simp [Domain.create_source, hc]

theorem c7_witness : Reachable dEx ∧ CloseSpec dEx "a" :=
  ⟨reachable_dEx, c7_close_input_spec dEx "a" reachable_dEx⟩

/-- C9: a name is never freed: after a successful `close_input(n)` on a
reachable domain, `n` is still a key of the forward index map that the
conflict check consults, so both `create_attribute(n)` and
`create_source(n, ...)` still fail with the conflict error and mutate
nothing. -/
theorem c9_name_never_freed (d : Domain) (n : String) (name_idx : Option Nat)
    (datoms : List (Nat × Update)) (hr : Reachable d)
    (hc : (d.close_input n).2 = none) :
    NeverFreedSpec d n name_idx datoms := by
  obtain ⟨-, hs, -⟩ := reachable_inv d hr
  cases hx : alLookup n d.input_sessions with
  | none => simp [Domain.close_input, hx] at hc
  | some s =>
    have hfwd : (d.close_input n).1.forward = d.forward := by
      simp [Domain.close_input, hx]
    have hsome : (alLookup n d.forward).isSome := hs n (by simp [hx])
    exact ⟨by rw [hfwd]; exact hsome,
      create_attribute_conflict _ n (by rw [hfwd]; exact hsome),
      create_source_conflict _ n name_idx datoms (by rw [hfwd]; exact hsome)⟩

theorem c9_witness :
    Reachable dEx ∧ (dEx.close_input "a").2 = none ∧ NeverFreedSpec dEx "a" none [] :=
  ⟨reachable_dEx, by decide,
    c9_name_never_freed dEx "a" none [] reachable_dEx (by decide)⟩

/-- C3: the relation backing every index is deduplicated before
indexing: content weights are always 0 or 1 (never negative, never a
multiple), and two inserts of `(e, v)` followed by one retract at the
same timestamp net to exactly one `(e, v)` present after the next
clock advancement. -/
theorem c3_distinct_collapses (e : Nat) (v : Value) (a : String) (next t : Time)
    (h : 0 < next) : DistinctSpec e v a next t := by
  constructor
  · intro ix p t2
    by_cases hp : 0 < ix.countAt p t2
    · right
      simp [CollectionIndex.contentAt, hp]
    · left
      simp [CollectionIndex.contentAt, hp]
  · have hne : ¬((0 : Time) = next) := Nat.ne_of_lt h
    have hstep :
        ((((Domain.new 0).create_attribute a).1.transact
            [⟨1, e, a, v⟩, ⟨1, e, a, v⟩, ⟨-1, e, a, v⟩]).1).advance_to next none =
          some { now_at := next
                 input_sessions := [(a, { time := next, buffer := [] })]
                 forward := [(a, { updates := [((Value.Eid e, v), 0, 1),
                                               ((Value.Eid e, v), 0, 1),
                                               ((Value.Eid e, v), 0, -1)]
                                   frontier := none })]
                 reverse := [(a, { updates := [((v, Value.Eid e), 0, 1),
                                               ((v, Value.Eid e), 0, 1),
                                               ((v, Value.Eid e), 0, -1)]
                                   frontier := none })] } := by
      simp [Domain.new, Domain.create_attribute, Domain.transact, Domain.applyTx,
        Domain.advance_to, Domain.advSession, Domain.advIndexF, Domain.advIndexR,
        Domain.bufOf, Domain.newFrontier, alLookup, alModify, swapU, hne]
    refine ⟨_, { updates := [((Value.Eid e, v), 0, 1),
                             ((Value.Eid e, v), 0, 1),
                             ((Value.Eid e, v), 0, -1)]
                 frontier := none }, hstep, by simp [alLookup], ?_⟩
    simp [CollectionIndex.contentAt, CollectionIndex.countAt, weightAt]

theorem c3_witness : 0 < 1 ∧ DistinctSpec 1 (Value.Str "x") "a" 1 1 :=
  ⟨by decide, c3_distinct_collapses 1 (Value.Str "x") "a" 1 1 (by decide)⟩

end DD
